import Mathlib

/-!
Verification of the evaluation engine of `experiment2/model/loss.py`.

The numeric code is embedded shallowly over `ℚ`:
  * numpy/torch matrices become `List (List ℚ)` (row-major), flat views become
    `List.flatten`, missing entries read through `List.getD`;
  * `np.argsort` / `np.sort` are modelled by a deterministic comparison sort
    (`List.insertionSort`) with index tie-breaking — the repository's own spec
    leaves tie order unspecified;
  * Python exceptions become `Except PyError`;
  * calls into external libraries whose internals are outside the repository
    (sklearn KMeans + clustering scores, scipy `spearmanr`, the cosine kernel
    and `F.normalize`, which need real square roots, and `uniform_loss`, which
    needs `exp`/`log`) are parameters (`EvalOracles` fields / oracle
    arguments); every piece of control flow and arithmetic that lives in
    `loss.py` itself is written out from the source.
-/

/-- Python exceptions that the embedded code can raise: `ValueError` from
`list.index` in `mean_reciprocal_rank`, and the `InvalidInputError` that the
specification's failure policy asks for (the source never raises it). -/
inductive PyError where
  | valueError : PyError
  | invalidInputError : PyError
deriving DecidableEq, Repr

/-- Comparison used to model `np.argsort(row)` (ascending): order positions by
their value, breaking ties by position index. -/
def argRel (row : List ℚ) (i j : Nat) : Prop :=
  row.getD i 0 < row.getD j 0 ∨ (row.getD i 0 = row.getD j 0 ∧ i ≤ j)

instance argRel.decidable (row : List ℚ) : DecidableRel (argRel row) := fun i j => by
  unfold argRel
  infer_instance

instance argRel.total (row : List ℚ) : IsTotal Nat (argRel row) where
  total i j := by
    rcases lt_trichotomy (row.getD i 0) (row.getD j 0) with h | h | h
    · exact Or.inl (Or.inl h)
    · rcases Nat.le_total i j with hij | hij
      · exact Or.inl (Or.inr ⟨h, hij⟩)
      · exact Or.inr (Or.inr ⟨h.symm, hij⟩)
    · exact Or.inr (Or.inl h)

instance argRel.trans (row : List ℚ) : IsTrans Nat (argRel row) where
  trans i j k hij hjk := by
    rcases hij with h1 | ⟨h1, h1'⟩ <;> rcases hjk with h2 | ⟨h2, h2'⟩
    · exact Or.inl (h1.trans h2)
    · exact Or.inl (h2 ▸ h1)
    · exact Or.inl (h1 ▸ h2)
    · exact Or.inr ⟨h1.trans h2, h1'.trans h2'⟩

/-- `np.argsort(row)` (ascending, axis = -1) on one row. -/
def argsortAsc (row : List ℚ) : List Nat :=
  List.insertionSort (argRel row) (List.range row.length)

/-- Python's `list.index(1)`: position of the first entry equal to `1`,
`ValueError` when there is none. -/
def index1 : List ℚ → Except PyError Nat
  | [] => Except.error PyError.valueError
  | x :: xs => if x = 1 then Except.ok 0 else (index1 xs).map (· + 1)

/-- `np.cumsum` with running total `c`. -/
def cumsumFrom (c : ℚ) : List ℚ → List ℚ
  | [] => []
  | x :: xs => (c + x) :: cumsumFrom (c + x) xs

/-- `np.cumsum` over one row. -/
def cumsum (l : List ℚ) : List ℚ := cumsumFrom 0 l

/-- `skip_diag_strided` (loss.py 181-192): view `A.ravel()[1:]` with strides
`(s0+s1, s1)` as an `(m-1) × m` array and reshape to `(m, m-1)`.  Output flat
position `k` therefore reads `A.ravel()` at `1 + (k / m) * (m + 1) + k % m`. -/
def skip_diag_strided (A : List (List ℚ)) : List (List ℚ) :=
  let m := A.length
  (List.range m).map fun i =>
    (List.range (m - 1)).map fun j =>
      let k := i * (m - 1) + j
      A.flatten.getD (1 + (k / m) * (m + 1) + k % m) 0

/-- The `scores_from_subject` half of
`precalculate_scores_from_subject_and_model` (loss.py 160-179): the N×N
same-label indicator matrix `(M_y == M_y.T).astype(float)`. -/
def subject_scores (labels : List ℤ) : List (List ℚ) :=
  (List.range labels.length).map fun i =>
    (List.range labels.length).map fun j =>
      if labels.getD i 0 = labels.getD j 0 then (1 : ℚ) else 0

/-- `semantic_relatedness_precise` (loss.py 194-224) on pre-dropped score
matrices: per-row Spearman correlation through the scipy oracle `sp`
(`none` models a NaN result), NaN replaced by `0`, each row contributing
`corr / n_rows` to the accumulator. -/
def semantic_relatedness_precise (sp : List ℚ → List ℚ → Option ℚ)
    (S M : List (List ℚ)) : ℚ :=
  (List.range S.length).foldl
    (fun acc i =>
      let corr : ℚ :=
        match sp (S.getD i []) (M.getD i []) with
        | some c => c
        | none => 0
      acc + corr / S.length)
    0

/-- `get_rankings` (loss.py 226-236): `np.argsort(np.argsort(-M)) + 1`,
row-wise 1-based descending ranks. -/
def get_rankings (M : List (List ℚ)) : List (List ℚ) :=
  M.map fun row =>
    let rank1 := argsortAsc (row.map fun x => -x)
    let rank2 := argsortAsc (rank1.map fun (x : Nat) => (x : ℚ))
    rank2.map fun (x : Nat) => (x : ℚ) + 1

/-- One row of `mean_average_precision` (loss.py 244-254): select the ranks at
positions whose subject entry equals 1, sort them ascending, divide the
cumulative sum of the selected subject entries by the sorted ranks, and take
`np.mean`. -/
def map_row (srow rrow : List ℚ) : ℚ :=
  let sel := (srow.zip rrow).filter fun p => decide (p.1 = 1)
  let rankings := List.insertionSort (· ≤ ·) (sel.map Prod.snd)
  let cs := cumsum (sel.map Prod.fst)
  let recip := List.zipWith (· / ·) cs rankings
  recip.sum / recip.length

/-- `mean_average_precision` (loss.py 239-257): accumulate
`np.mean(reciprocal_rankings) / n_samples` over the rows. -/
def mean_average_precision (S R : List (List ℚ)) : ℚ :=
  let n := S.length
  (List.range n).foldl (fun acc i => acc + map_row (S.getD i []) (R.getD i []) / n) 0

/-- Row loop of `mean_reciprocal_rank` (loss.py 268-270): reorder each subject
row by ascending model score, reverse (descending), and find the position of
the first `1` with Python's `list.index` — `ValueError` when a row has no
positive entry. -/
def mrr_core : List (List ℚ × List ℚ) → Except PyError (List Nat)
  | [] => Except.ok []
  | (s, mr) :: rest => do
    let sorted := ((argsortAsc mr).map fun j => s.getD j 0).reverse
    let p ← index1 sorted
    let tl ← mrr_core rest
    pure (p :: tl)

/-- `mean_reciprocal_rank` (loss.py 260-271): `np.mean(1 / (rs + 1))` over the
per-row first-positive positions. -/
def mean_reciprocal_rank (S M : List (List ℚ)) : Except PyError ℚ :=
  (mrr_core (S.zip M)).map fun rs =>
    ((rs.map fun (r : Nat) => (1 : ℚ) / ((r : ℚ) + 1)).sum) / rs.length

/-- Squared euclidean distance between two feature rows:
`(x - y).norm(p=2, dim=1).pow(2)`. -/
def sqdistRow (x y : List ℚ) : ℚ := (List.zipWith (fun a b => (a - b) ^ 2) x y).sum

/-- `align_loss` (loss.py 291-307) with `alpha = 2` on an `n`-row batch:
returns the masked sum of squared distances and the mask total. -/
def align_loss (n : Nat) (x y : Nat → List ℚ) (label : Nat → ℚ) : ℚ × ℚ :=
  (∑ j ∈ Finset.range n, sqdistRow (x j) (y j) * label j,
   ∑ j ∈ Finset.range n, label j)

/-- Same-label indicator entry used by `align_uniform` (cpu path):
`(M_y == M_y.T)` at `(i, j)`. -/
def indicatorQ (labels : List ℤ) (i j : Nat) : ℚ :=
  if labels.getD i 0 = labels.getD j 0 then 1 else 0

/-- `align_uniform` (loss.py 323-370): accumulate `align_loss` of row `i`
broadcast against the whole batch with the indicator row (positives) and its
complement (negatives), divide each total by its pair count, and return
`(positive_alignment, positive_alignment - negative_alignment,
uniformity / n)`.  `uni i` is the per-iteration `uniform_loss` value
(transcendental, outside ℚ). -/
def align_uniform (feats : List (List ℚ)) (labels : List ℤ) (uni : Nat → ℚ) :
    ℚ × ℚ × ℚ :=
  let n := labels.length
  let pos := ∑ i ∈ Finset.range n,
    (align_loss n (fun _ => feats.getD i []) (fun j => feats.getD j [])
      (fun j => indicatorQ labels i j)).1
  let npos := ∑ i ∈ Finset.range n,
    (align_loss n (fun _ => feats.getD i []) (fun j => feats.getD j [])
      (fun j => indicatorQ labels i j)).2
  let neg := ∑ i ∈ Finset.range n,
    (align_loss n (fun _ => feats.getD i []) (fun j => feats.getD j [])
      (fun j => 1 - indicatorQ labels i j)).1
  let nneg := ∑ i ∈ Finset.range n,
    (align_loss n (fun _ => feats.getD i []) (fun j => feats.getD j [])
      (fun j => 1 - indicatorQ labels i j)).2
  let u := ∑ i ∈ Finset.range n, uni i
  (pos / npos, pos / npos - neg / nneg, u / n)

/-- The `EvaluationResult` dataclass (loss.py 25-50). -/
structure EvaluationResult where
  RI : ℚ
  NMI : ℚ
  acc : ℚ
  purity : ℚ
  SR : ℚ
  MRR : ℚ
  MAP : ℚ
  all_mean : ℚ
  alignment : ℚ
  adjusted_alignment : ℚ
  uniformity : ℚ
deriving DecidableEq, Repr

/-- `self.positive_metrics` as set in `__post_init__`. -/
def positive_metrics : List String := ["RI", "NMI", "acc", "purity", "SR", "MRR", "MAP"]

/-- The dataclass fields in `self.__dict__` iteration (insertion) order. -/
def allFields : List String :=
  ["RI", "NMI", "acc", "purity", "SR", "MRR", "MAP",
   "all_mean", "alignment", "adjusted_alignment", "uniformity"]

/-- Field access by name, mirroring `self.__dict__[key]`. -/
def fieldValue (r : EvaluationResult) : String → ℚ := fun s =>
  if s = "RI" then r.RI
  else if s = "NMI" then r.NMI
  else if s = "acc" then r.acc
  else if s = "purity" then r.purity
  else if s = "SR" then r.SR
  else if s = "MRR" then r.MRR
  else if s = "MAP" then r.MAP
  else if s = "all_mean" then r.all_mean
  else if s = "alignment" then r.alignment
  else if s = "adjusted_alignment" then r.adjusted_alignment
  else r.uniformity

/-- `EvaluationResult.mean` (loss.py 55-66): collect the values whose field
name is in `positive_metrics` (`negative_metrics` is empty), average them. -/
def EvaluationResult.mean (r : EvaluationResult) : ℚ :=
  let vals := (allFields.filter fun k => decide (k ∈ positive_metrics)).map (fieldValue r)
  vals.sum / vals.length

/-- Dataclass construction followed by `__post_init__` (loss.py 39-50):
`all_mean` is reset to `0` and then derived once via `mean()`. -/
def mkEvaluationResult (ri nmi ac pur sr mrr mp al adj unif : ℚ) : EvaluationResult :=
  let r0 : EvaluationResult :=
    { RI := ri, NMI := nmi, acc := ac, purity := pur, SR := sr, MRR := mrr, MAP := mp,
      all_mean := 0, alignment := al, adjusted_alignment := adj, uniformity := unif }
  { r0 with all_mean := r0.mean }

/-- `EvaluationResult.update` (loss.py 68-79): copy the seven
classification/ranking fields from `s`, leave everything else alone. -/
def EvaluationResult.update (r s : EvaluationResult) : EvaluationResult :=
  { r with RI := s.RI, NMI := s.NMI, acc := s.acc, purity := s.purity,
           SR := s.SR, MRR := s.MRR, MAP := s.MAP }

/-- External-library calls made by `Loss.evaluation_during_training`, passed
as oracles: one KMeans fit plus the four clustering scores (sklearn/scipy),
`feature_cosine_matrix` and `F.normalize` (need real square roots),
`spearmanr` (`none` = NaN), and the per-iteration `uniform_loss` value. -/
structure EvalOracles where
  clusterScores : Nat → List ℤ → List (List ℚ) → ℚ × ℚ × ℚ × ℚ
  cosine : List (List ℚ) → List (List ℚ)
  spearman : List ℚ → List ℚ → Option ℚ
  normalize : List (List ℚ) → List (List ℚ)
  uni : Nat → ℚ

/-- The task names the orchestrator tests for. -/
def knownTasks : List String :=
  ["clustering", "semantic_relatedness", "session_retrieval", "align_uniform",
   "visualization"]

/-- `Loss.evaluation_during_training` (loss.py 410-557): initialise every
metric to `0`, run each suite only when its task name is a member of `tasks`,
and build the `EvaluationResult`.  The `visualization` branch only writes a
file and is omitted; timing accumulation and logging are side channels and
are omitted.  No input validation of any kind is performed by the source. -/
def evaluation_during_training (oc : EvalOracles) (features : List (List ℚ))
    (labels : List ℤ) (n_average : Nat) (tasks : List String) :
    Except PyError EvaluationResult := do
  let clusterPart : ℚ × ℚ × ℚ × ℚ :=
    if "clustering" ∈ tasks then
      (List.range n_average).foldl
        (fun acc t =>
          let s := oc.clusterScores t labels features
          (acc.1 + s.1 / n_average, acc.2.1 + s.2.1 / n_average,
           acc.2.2.1 + s.2.2.1 / n_average, acc.2.2.2 + s.2.2.2 / n_average))
        (0, 0, 0, 0)
    else (0, 0, 0, 0)
  let srPart : ℚ × Except PyError ℚ × ℚ :=
    if "semantic_relatedness" ∈ tasks ∨ "session_retrieval" ∈ tasks then
      let s1 := skip_diag_strided (subject_scores labels)
      let m1 := skip_diag_strided (oc.cosine features)
      let sr := if "semantic_relatedness" ∈ tasks then
          semantic_relatedness_precise oc.spearman s1 m1
        else 0
      let retr : Except PyError ℚ × ℚ :=
        if "session_retrieval" ∈ tasks then
          (mean_reciprocal_rank s1 m1, mean_average_precision s1 (get_rankings m1))
        else (Except.ok 0, 0)
      (sr, retr.1, retr.2)
    else (0, Except.ok 0, 0)
  let mrr ← srPart.2.1
  let alignPart : ℚ × ℚ × ℚ :=
    if "align_uniform" ∈ tasks then
      align_uniform (oc.normalize features) labels oc.uni
    else (0, 0, 0)
  pure (mkEvaluationResult clusterPart.1 clusterPart.2.1 clusterPart.2.2.1
    clusterPart.2.2.2 srPart.1 mrr srPart.2.2 alignPart.1 alignPart.2.1
    alignPart.2.2)

/-- Concrete oracles used to run the orchestrator on closed inputs. -/
def trivOracles : EvalOracles where
  clusterScores := fun _ _ _ => (0, 0, 0, 0)
  cosine := fun _ => []
  spearman := fun _ _ => none
  normalize := fun m => m
  uni := fun _ => 0

/-! ### Helper lemmas -/

theorem flatten_getD (A : List (List ℚ)) (m : Nat) (hrows : ∀ r ∈ A, r.length = m)
    (i c : Nat) (hi : i < A.length) (hc : c < m) :
    A.flatten.getD (i * m + c) 0 = (A.getD i []).getD c 0 := by
  induction A generalizing i with
  | nil => simp at hi
  | cons r A ih =>
    have hr : r.length = m := hrows r (by simp)
    cases i with
    | zero =>
      simp only [List.flatten_cons, Nat.zero_mul, Nat.zero_add, List.getD_cons_zero]
      exact List.getD_append _ _ _ _ (by omega)
    | succ i =>
      simp only [List.flatten_cons, List.getD_cons_succ]
      have harith : (i + 1) * m + c = r.length + (i * m + c) := by
        rw [hr]; ring
      rw [harith, List.getD_append_right _ _ _ _ (by omega), Nat.add_sub_cancel_left]
      exact ih (fun s hs => hrows s (by simp [hs])) i (by simpa using hi)

theorem stride_index (m i j : Nat) (hm : 2 ≤ m) (hi : i < m) (hj : j < m - 1) :
    1 + ((i * (m - 1) + j) / m) * (m + 1) + (i * (m - 1) + j) % m
      = i * m + (if j < i then j else j + 1) := by
  have hm1 : 1 ≤ m := by omega
  have hiZ : (i : ℤ) < m := by exact_mod_cast hi
  have hjZ : (j : ℤ) < (m : ℤ) - 1 := by
    have : (j : ℤ) < ((m - 1 : Nat) : ℤ) := by exact_mod_cast hj
    omega
  by_cases hji : j < i
  · have hi1 : 1 ≤ i := by omega
    have hjiZ : (j : ℤ) < i := by exact_mod_cast hji
    have hlo : (i - 1) * m ≤ i * (m - 1) + j := by
      zify [hi1, hm1]
      nlinarith [hiZ, hjZ]
    have hhi : i * (m - 1) + j < (i - 1 + 1) * m := by
      zify [hi1, hm1]
      nlinarith [hjiZ]
    have hdiv : (i * (m - 1) + j) / m = i - 1 := Nat.div_eq_of_lt_le hlo hhi
    have hmod : (i * (m - 1) + j) % m = m - i + j := by
      have hdm := Nat.div_add_mod (i * (m - 1) + j) m
      rw [hdiv] at hdm
      zify [hi1, hm1, Nat.le_of_lt hi] at hdm ⊢
      nlinarith [hdm]
    rw [hdiv, hmod, if_pos hji]
    zify [hi1, hm1, Nat.le_of_lt hi]
    ring
  · have hjiZ : (i : ℤ) ≤ j := by exact_mod_cast Nat.le_of_not_lt hji
    have hlo : i * m ≤ i * (m - 1) + j := by
      zify [hm1]
      nlinarith [hjiZ]
    have hhi : i * (m - 1) + j < (i + 1) * m := by
      zify [hm1]
      nlinarith [hjZ, hiZ]
    have hdiv : (i * (m - 1) + j) / m = i := Nat.div_eq_of_lt_le hlo hhi
    have hmod : (i * (m - 1) + j) % m = j - i := by
      have hdm := Nat.div_add_mod (i * (m - 1) + j) m
      rw [hdiv] at hdm
      zify [hm1, Nat.le_of_not_lt hji] at hdm ⊢
      nlinarith [hdm]
    rw [hdiv, hmod, if_neg hji]
    zify [hm1, Nat.le_of_not_lt hji]
    ring

theorem skip_diag_row (A : List (List ℚ)) (m : Nat) (hm : 2 ≤ m) (hA : A.length = m)
    (hrows : ∀ r ∈ A, r.length = m) (i : Nat) (hi : i < m) :
    (skip_diag_strided A).getD i [] = (A.getD i []).eraseIdx i := by
  have hrow : (A.getD i []).length = m := by
    rw [List.getD_eq_getElem _ _ (by omega)]
    exact hrows _ (List.getElem_mem _)
  simp only [skip_diag_strided, hA]
  rw [List.getD_eq_getElem _ _ (by simpa using hi), List.getElem_map, List.getElem_range]
  apply List.ext_getElem
  · have hlen : ((A.getD i []).eraseIdx i).length = m - 1 := by
      rw [List.length_eraseIdx_of_lt (by rw [hrow]; exact hi), hrow]
    simp only [List.length_map, List.length_range]
    omega
  · intro j h1 h2
    simp only [List.length_map, List.length_range] at h1
    rw [List.getElem_map, List.getElem_range, List.getElem_eraseIdx]
    rw [stride_index m i j hm hi h1]
    rw [flatten_getD A m hrows i _ (by omega)
      (by by_cases hji : j < i <;> simp [hji] <;> omega)]
    by_cases hji : j < i
    · rw [if_pos hji, dif_pos hji, List.getD_eq_getElem _ _ (by omega)]
    · rw [if_neg hji, dif_neg hji, List.getD_eq_getElem _ _ (by omega)]

/-! ### C1 -/

/-- C1: for every square N×N matrix (N ≥ 2), `skip_diag_strided` returns an
N×(N-1) matrix whose row `i` is row `i` of the input with the single entry at
column `i` removed, the relative order of the remaining entries preserved
(`List.eraseIdx` is exactly that operation). -/
theorem skip_diag_strided_drops_diagonal (A : List (List ℚ)) (m : Nat) (hm : 2 ≤ m)
    (hA : A.length = m) (hrows : ∀ r ∈ A, r.length = m) :
    (skip_diag_strided A).length = m ∧
    (∀ row ∈ skip_diag_strided A, row.length = m - 1) ∧
    ∀ i < m, (skip_diag_strided A).getD i [] = (A.getD i []).eraseIdx i := by
  refine ⟨by simp [skip_diag_strided, hA], ?_, fun i hi => skip_diag_row A m hm hA hrows i hi⟩
  intro row hrow
  simp only [skip_diag_strided, hA, List.mem_map] at hrow
  obtain ⟨i, _, rfl⟩ := hrow
  simp

/-- Witness for C1 at a concrete 3×3 matrix. -/
theorem skip_diag_strided_drops_diagonal_witness :
    (skip_diag_strided [[(1:ℚ),2,3],[4,5,6],[7,8,9]]).getD 1 []
      = ([[(1:ℚ),2,3],[4,5,6],[7,8,9]].getD 1 []).eraseIdx 1 :=
  (skip_diag_strided_drops_diagonal [[(1:ℚ),2,3],[4,5,6],[7,8,9]] 3 (by decide)
    (by decide) (by decide)).2.2 1 (by decide)

theorem foldl_add_eq_sum (g : Nat → ℚ) (l : List Nat) (a : ℚ) :
    l.foldl (fun acc i => acc + g i) a = a + (l.map g).sum := by
  induction l generalizing a with
  | nil => simp
  | cons x xs ih => simp [ih, add_assoc]

theorem sum_map_range_eq_finset_sum (g : Nat → ℚ) (n : Nat) :
    ((List.range n).map g).sum = ∑ i ∈ Finset.range n, g i := by
  induction n with
  | zero => simp
  | succ n ih => rw [List.range_succ, Finset.sum_range_succ, List.map_append, List.sum_append, ih]; simp

/-! ### C7 -/

/-- C7: `all_mean` of a freshly constructed `EvaluationResult` is the
arithmetic mean of the seven fields RI, NMI, acc, purity, SR, MRR, MAP —
`all_mean` itself and the alignment/adjusted-alignment/uniformity triad are
excluded from the average (the closed form on the right does not mention
them). -/
theorem all_mean_at_construction (ri nmi ac pur sr mrr mp al adj unif : ℚ) :
    (mkEvaluationResult ri nmi ac pur sr mrr mp al adj unif).all_mean
      = (ri + nmi + ac + pur + sr + mrr + mp) / 7 := by
  simp only [mkEvaluationResult, EvaluationResult.mean, allFields, positive_metrics,
    fieldValue, List.filter, List.map]
  simp +decide
  ring

/-! ### C8 -/

/-- C8: `update` copies RI, NMI, acc, purity, SR, MRR, MAP from its argument
and leaves alignment, adjusted_alignment, uniformity, and all_mean at the
values the receiver had before the call (in particular `all_mean` is not
recomputed from the copied fields). -/
theorem update_copies_seven_fields (r s : EvaluationResult) :
    (r.update s).RI = s.RI ∧ (r.update s).NMI = s.NMI ∧ (r.update s).acc = s.acc ∧
    (r.update s).purity = s.purity ∧ (r.update s).SR = s.SR ∧
    (r.update s).MRR = s.MRR ∧ (r.update s).MAP = s.MAP ∧
    (r.update s).alignment = r.alignment ∧
    (r.update s).adjusted_alignment = r.adjusted_alignment ∧
    (r.update s).uniformity = r.uniformity ∧
    (r.update s).all_mean = r.all_mean := by
  simp [EvaluationResult.update]

/-! ### C6 -/

/-- C6: `semantic_relatedness_precise` equals the sum, over exactly the rows
whose Spearman correlation is defined, of that correlation divided by the
total row count; rows with an undefined (NaN) correlation contribute nothing.
In particular the result is always a well-defined rational — a NaN per-row
correlation is replaced by 0 and never propagates. -/
theorem semantic_relatedness_no_nan (sp : List ℚ → List ℚ → Option ℚ)
    (S M : List (List ℚ)) :
    semantic_relatedness_precise sp S M
      = (∑ i ∈ (Finset.range S.length).filter
            (fun i => (sp (S.getD i []) (M.getD i [])).isSome),
          (sp (S.getD i []) (M.getD i [])).getD 0) / S.length := by
  unfold semantic_relatedness_precise
  rw [foldl_add_eq_sum (fun i =>
    (match sp (S.getD i []) (M.getD i []) with
     | some c => c
     | none => 0) / S.length) (List.range S.length) 0]
  rw [zero_add, sum_map_range_eq_finset_sum]
  rw [Finset.sum_filter, ← Finset.sum_div]
  congr 1
  apply Finset.sum_congr rfl
  intro i _
  cases h : sp (S.getD i []) (M.getD i []) <;> simp [h]

instance exceptDecEq {ε α : Type} [DecidableEq ε] [DecidableEq α] :
    DecidableEq (Except ε α) := fun x y =>
  match x, y with
  | .ok a, .ok b =>
    if h : a = b then isTrue (by rw [h]) else isFalse fun hh => h (by injection hh)
  | .error e, .error f =>
    if h : e = f then isTrue (by rw [h]) else isFalse fun hh => h (by injection hh)
  | .ok _, .error _ => isFalse fun hh => Except.noConfusion hh
  | .error _, .ok _ => isFalse fun hh => Except.noConfusion hh

/-! ### C3 -/

/-- C3 counterexample: with only one distinct label (`[0, 0]`) and the
clustering task requested, `evaluation_during_training` does not fail with
`InvalidInputError` — the source performs no validation at all. -/
theorem evaluation_single_label_no_error :
    evaluation_during_training trivOracles [[1], [1]] [0, 0] 1 ["clustering"]
      ≠ Except.error PyError.invalidInputError := by
  decide

/-- C3 amended: `evaluation_during_training` performs no distinct-label
validation: when only the clustering task is requested it runs the KMeans fit
(with k = the number of distinct labels) and returns a result normally, even
when the label vector has fewer than 2 distinct labels. -/
theorem evaluation_single_label_returns (oc : EvalOracles) (features : List (List ℚ))
    (labels : List ℤ) (c : ℤ) (n_average : Nat)
    (_hlab : ∀ x ∈ labels, x = c) :
    ∃ r, evaluation_during_training oc features labels n_average ["clustering"]
      = Except.ok r := by
  exact ⟨_, rfl⟩

/-- Witness for C3's amended statement on a concrete single-label input. -/
theorem evaluation_single_label_returns_witness :
    ∃ r, evaluation_during_training trivOracles [[1], [1]] [0, 0] 1 ["clustering"]
      = Except.ok r :=
  evaluation_single_label_returns trivOracles [[1], [1]] [0, 0] 0 1 (by decide)

/-! ### C9 -/

/-- C9 counterexample: a request containing only the unknown task name
`"bogus"` does not fail with `InvalidInputError`. -/
theorem evaluation_unknown_task_no_error :
    evaluation_during_training trivOracles [[1]] [0] 1 ["bogus"]
      ≠ Except.error PyError.invalidInputError := by
  decide

/-- C9 amended: unknown task names are silently ignored — if every requested
task name is outside {clustering, semantic_relatedness, session_retrieval,
align_uniform, visualization}, every suite is skipped and the evaluation
returns a result whose metrics are all at their initialisation value 0. -/
theorem evaluation_unknown_tasks_ignored (oc : EvalOracles) (features : List (List ℚ))
    (labels : List ℤ) (n_average : Nat) (tasks : List String)
    (hun : ∀ t ∈ tasks, t ∉ knownTasks) :
    evaluation_during_training oc features labels n_average tasks
      = Except.ok (mkEvaluationResult 0 0 0 0 0 0 0 0 0 0) := by
  have h1 : ¬ ("clustering" ∈ tasks) := fun h => hun _ h (by decide)
  have h2 : ¬ ("semantic_relatedness" ∈ tasks) := fun h => hun _ h (by decide)
  have h3 : ¬ ("session_retrieval" ∈ tasks) := fun h => hun _ h (by decide)
  have h4 : ¬ ("align_uniform" ∈ tasks) := fun h => hun _ h (by decide)
  simp [evaluation_during_training, h1, h2, h3, h4]

/-- Witness for C9's amended statement on a concrete unknown task name. -/
theorem evaluation_unknown_tasks_ignored_witness :
    evaluation_during_training trivOracles [[1]] [0] 1 ["bogus"]
      = Except.ok (mkEvaluationResult 0 0 0 0 0 0 0 0 0 0) :=
  evaluation_unknown_tasks_ignored trivOracles [[1]] [0] 1 ["bogus"] (by decide)

/-! ### C4 -/

theorem sqdistRow_self (x : List ℚ) : sqdistRow x x = 0 := by
  induction x with
  | nil => simp [sqdistRow]
  | cons a xs ih =>
    simp only [sqdistRow] at ih
    simp [sqdistRow, ih]

/-- C4: `align_uniform` returns an adjusted alignment equal to
positive_alignment minus negative_alignment, where positive_alignment is the
sum of squared anchor-other distances over all ordered pairs `(i, j)` with
equal labels divided by the number of such pairs, and negative_alignment the
analogous quotient over pairs with different labels.  The same-label pair set
contains every self-pair `(i, i)`, contributing a zero distance term to the
sum and one to the pair count. -/
theorem align_uniform_pos_neg (feats : List (List ℚ)) (labels : List ℤ) (uni : Nat → ℚ)
    (_hn : 0 < labels.length)
    (_hneg : ∃ i < labels.length, ∃ j < labels.length,
      ¬ (labels.getD i 0 = labels.getD j 0)) :
    (align_uniform feats labels uni).1
      = (∑ p ∈ (Finset.range labels.length ×ˢ Finset.range labels.length).filter
            (fun p => labels.getD p.1 0 = labels.getD p.2 0),
          sqdistRow (feats.getD p.1 []) (feats.getD p.2 []))
        / (((Finset.range labels.length ×ˢ Finset.range labels.length).filter
            (fun p => labels.getD p.1 0 = labels.getD p.2 0)).card : ℚ) ∧
    (align_uniform feats labels uni).2.1
      = (∑ p ∈ (Finset.range labels.length ×ˢ Finset.range labels.length).filter
            (fun p => labels.getD p.1 0 = labels.getD p.2 0),
          sqdistRow (feats.getD p.1 []) (feats.getD p.2 []))
        / (((Finset.range labels.length ×ˢ Finset.range labels.length).filter
            (fun p => labels.getD p.1 0 = labels.getD p.2 0)).card : ℚ)
        - (∑ p ∈ (Finset.range labels.length ×ˢ Finset.range labels.length).filter
            (fun p => ¬ (labels.getD p.1 0 = labels.getD p.2 0)),
          sqdistRow (feats.getD p.1 []) (feats.getD p.2 []))
        / (((Finset.range labels.length ×ˢ Finset.range labels.length).filter
            (fun p => ¬ (labels.getD p.1 0 = labels.getD p.2 0))).card : ℚ) ∧
    ∀ i < labels.length, sqdistRow (feats.getD i []) (feats.getD i []) = 0 ∧
      (i, i) ∈ (Finset.range labels.length ×ˢ Finset.range labels.length).filter
          (fun p => labels.getD p.1 0 = labels.getD p.2 0) := by
  have hcomp : ∀ (c : Prop) [Decidable c], (1 : ℚ) - (if c then 1 else 0)
      = if c then 0 else 1 := by
    intro c hc
    split <;> ring
  have hpos1 : ∑ i ∈ Finset.range labels.length,
      (align_loss labels.length (fun _ => feats.getD i []) (fun j => feats.getD j [])
        (fun j => indicatorQ labels i j)).1
      = ∑ p ∈ (Finset.range labels.length ×ˢ Finset.range labels.length).filter
          (fun p => labels.getD p.1 0 = labels.getD p.2 0),
        sqdistRow (feats.getD p.1 []) (feats.getD p.2 []) := by
    simp only [align_loss, indicatorQ, mul_ite, mul_one, mul_zero]
    rw [← Finset.sum_product', Finset.sum_filter]
  have hpos2 : ∑ i ∈ Finset.range labels.length,
      (align_loss labels.length (fun _ => feats.getD i []) (fun j => feats.getD j [])
        (fun j => indicatorQ labels i j)).2
      = (((Finset.range labels.length ×ˢ Finset.range labels.length).filter
          (fun p => labels.getD p.1 0 = labels.getD p.2 0)).card : ℚ) := by
    simp only [align_loss, indicatorQ]
    rw [← Finset.sum_product', ← Finset.sum_boole]
  have hneg1 : ∑ i ∈ Finset.range labels.length,
      (align_loss labels.length (fun _ => feats.getD i []) (fun j => feats.getD j [])
        (fun j => 1 - indicatorQ labels i j)).1
      = ∑ p ∈ (Finset.range labels.length ×ˢ Finset.range labels.length).filter
          (fun p => ¬ (labels.getD p.1 0 = labels.getD p.2 0)),
        sqdistRow (feats.getD p.1 []) (feats.getD p.2 []) := by
    simp only [align_loss, indicatorQ, hcomp, mul_ite, mul_one, mul_zero]
    rw [← Finset.sum_product', Finset.sum_filter]
    apply Finset.sum_congr rfl
    intro p _
    by_cases h : labels.getD p.1 0 = labels.getD p.2 0 <;> simp [h]
  have hneg2 : ∑ i ∈ Finset.range labels.length,
      (align_loss labels.length (fun _ => feats.getD i []) (fun j => feats.getD j [])
        (fun j => 1 - indicatorQ labels i j)).2
      = (((Finset.range labels.length ×ˢ Finset.range labels.length).filter
          (fun p => ¬ (labels.getD p.1 0 = labels.getD p.2 0))).card : ℚ) := by
    simp only [align_loss, indicatorQ, hcomp]
    rw [← Finset.sum_product', ← Finset.sum_boole]
    apply Finset.sum_congr rfl
    intro p _
    by_cases h : labels.getD p.1 0 = labels.getD p.2 0 <;> simp [h]
  refine ⟨?_, ?_, ?_⟩
  · simp only [align_uniform]
    rw [hpos1, hpos2]
  · simp only [align_uniform]
    rw [hpos1, hpos2, hneg1, hneg2]
  · intro i hi
    exact ⟨sqdistRow_self _, by simp [Finset.mem_filter, Finset.mem_product, hi]⟩

/-- Witness for C4 on a concrete three-sample batch with two labels. -/
theorem align_uniform_pos_neg_witness :
    (align_uniform [[1, 0], [0, 1], [1, 0]] [0, 1, 0] (fun _ => 0)).2.1
      = (∑ p ∈ (Finset.range 3 ×ˢ Finset.range 3).filter
            (fun p => ([0, 1, 0] : List ℤ).getD p.1 0 = ([0, 1, 0] : List ℤ).getD p.2 0),
          sqdistRow ([[1, 0], [0, 1], [1, 0]].getD p.1 []) ([[1, 0], [0, 1], [1, 0]].getD p.2 []))
        / (((Finset.range 3 ×ˢ Finset.range 3).filter
            (fun p => ([0, 1, 0] : List ℤ).getD p.1 0 = ([0, 1, 0] : List ℤ).getD p.2 0)).card : ℚ)
        - (∑ p ∈ (Finset.range 3 ×ˢ Finset.range 3).filter
            (fun p => ¬ (([0, 1, 0] : List ℤ).getD p.1 0 = ([0, 1, 0] : List ℤ).getD p.2 0)),
          sqdistRow ([[1, 0], [0, 1], [1, 0]].getD p.1 []) ([[1, 0], [0, 1], [1, 0]].getD p.2 []))
        / (((Finset.range 3 ×ˢ Finset.range 3).filter
            (fun p => ¬ (([0, 1, 0] : List ℤ).getD p.1 0 = ([0, 1, 0] : List ℤ).getD p.2 0))).card : ℚ) :=
  (align_uniform_pos_neg [[1, 0], [0, 1], [1, 0]] [0, 1, 0] (fun _ => 0)
    (by decide) ⟨0, by decide, 1, by decide, by decide⟩).2.1

/-! ### C2 -/

/-- Spec-side row score for MAP (this is the one definition written from the
spec's words, to be compared with the source's `map_row`): among the positions
whose subject indicator is 1, the k-th smallest rank receives value
(cumulative positive count) / rank = (k+1) / rank, and the row score is the
mean of these values. -/
def map_row_spec (srow rrow : List ℚ) : ℚ :=
  let ranks := List.insertionSort (· ≤ ·)
    (((srow.zip rrow).filter fun p => decide (p.1 = 1)).map Prod.snd)
  ((List.range ranks.length).map fun (k : Nat) => ((k : ℚ) + 1) / ranks.getD k 0).sum
    / ranks.length

theorem zip_cumsum_ones (ranks : List ℚ) : ∀ (l : List ℚ) (c : ℚ),
    l.length = ranks.length → (∀ x ∈ l, x = 1) →
    List.zipWith (· / ·) (cumsumFrom c l) ranks
      = (List.range ranks.length).map fun (k : Nat) => (c + (k : ℚ) + 1) / ranks.getD k 0 := by
  induction ranks with
  | nil =>
    intro l c hlen _
    rw [List.length_eq_zero.mp hlen]
    simp [cumsumFrom]
  | cons r rs ih =>
    intro l c hlen hone
    obtain ⟨x, xs, rfl⟩ : ∃ x xs, l = x :: xs := by
      cases l with
      | nil => simp at hlen
      | cons x xs => exact ⟨x, xs, rfl⟩
    have hx : x = 1 := hone x (by simp)
    subst hx
    simp only [cumsumFrom, List.zipWith_cons_cons]
    rw [ih xs (c + 1) (by simpa using hlen) (fun y hy => hone y (by simp [hy]))]
    simp only [List.length_cons]
    rw [List.range_succ_eq_map]
    simp only [List.map_cons, List.map_map, Nat.cast_zero, List.getD_cons_zero]
    congr 1
    · norm_num
    · apply List.map_congr_left
      intro k _
      simp only [Function.comp_apply, List.getD_cons_succ]
      push_cast
      ring_nf

theorem mean_zip_cumsum (ones ranks : List ℚ) (hlen : ones.length = ranks.length)
    (hones : ∀ x ∈ ones, x = 1) :
    (List.zipWith (· / ·) (cumsum ones) ranks).sum
      / ((List.zipWith (· / ·) (cumsum ones) ranks).length : ℚ)
      = ((List.range ranks.length).map
          fun (k : Nat) => ((k : ℚ) + 1) / ranks.getD k 0).sum / (ranks.length : ℚ) := by
  rw [cumsum, zip_cumsum_ones ranks ones 0 hlen hones]
  simp only [List.length_map, List.length_range]
  congr 1
  apply congrArg List.sum
  apply List.map_congr_left
  intro k _
  ring_nf

theorem map_row_eq_spec (srow rrow : List ℚ) : map_row srow rrow = map_row_spec srow rrow := by
  simp only [map_row, map_row_spec]
  apply mean_zip_cumsum
  · rw [(List.perm_insertionSort (· ≤ ·)
      (((srow.zip rrow).filter fun p => decide (p.1 = 1)).map Prod.snd)).length_eq]
    simp
  · intro x hx
    simp only [List.mem_map, List.mem_filter] at hx
    obtain ⟨p, ⟨_, hp⟩, rfl⟩ := hx
    exact of_decide_eq_true hp

/-- C2: on matrices whose rows each contain at least one positive entry,
`mean_average_precision` is the macro-average over rows — each row
contributes, weighted by 1 / (number of rows) regardless of its number of
positives, the mean over its positive positions of (cumulative positive
count) / (sorted rank). -/
theorem mean_average_precision_macro (S R : List (List ℚ))
    (_hpos : ∀ i < S.length, ∃ p ∈ (S.getD i []).zip (R.getD i []), p.1 = (1 : ℚ)) :
    mean_average_precision S R
      = (∑ i ∈ Finset.range S.length, map_row_spec (S.getD i []) (R.getD i []))
        / S.length := by
  unfold mean_average_precision
  rw [foldl_add_eq_sum (fun i => map_row (S.getD i []) (R.getD i []) / S.length) _ 0,
    zero_add, sum_map_range_eq_finset_sum, ← Finset.sum_div]
  congr 1
  apply Finset.sum_congr rfl
  intro i _
  rw [map_row_eq_spec]

/-- Witness for C2 on a concrete one-row input with two positives. -/
theorem mean_average_precision_macro_witness :
    mean_average_precision [[1, 1, 0]] [[2, 3, 1]]
      = (∑ i ∈ Finset.range [[(1 : ℚ), 1, 0]].length,
          map_row_spec ([[(1 : ℚ), 1, 0]].getD i []) ([[(2 : ℚ), 3, 1]].getD i []))
        / [[(1 : ℚ), 1, 0]].length :=
  mean_average_precision_macro [[1, 1, 0]] [[2, 3, 1]] (by decide)

/-! ### Sorting lemmas shared by C5 and C10 -/

theorem argsortAsc_perm (row : List ℚ) : (argsortAsc row).Perm (List.range row.length) :=
  List.perm_insertionSort _ _

theorem map_getD_range (l : List ℚ) :
    (List.range l.length).map (fun j => l.getD j 0) = l := by
  apply List.ext_getElem
  · simp
  · intro i h1 h2
    simp only [List.getElem_map, List.getElem_range]
    rw [List.getD_eq_getElem _ _ h2]

theorem mem_sorted_subject (s mr : List ℚ) (hlen : s.length = mr.length) :
    ((1 : ℚ) ∈ (argsortAsc mr).map (fun j => s.getD j 0)) ↔ (1 : ℚ) ∈ s := by
  have hperm : ((argsortAsc mr).map (fun j => s.getD j 0)).Perm
      ((List.range mr.length).map (fun j => s.getD j 0)) := (argsortAsc_perm mr).map _
  rw [hperm.mem_iff, ← hlen, map_getD_range s]

theorem index1_eq_error (l : List ℚ) (h : (1 : ℚ) ∉ l) :
    index1 l = Except.error PyError.valueError := by
  induction l with
  | nil => rfl
  | cons x xs ih =>
    simp only [index1]
    rw [if_neg fun hx => h (by simp [hx]), ih fun hx => h (by simp [hx])]
    rfl

theorem index1_error_eq (l : List ℚ) (e : PyError) (h : index1 l = Except.error e) :
    e = PyError.valueError := by
  induction l with
  | nil => injection h with h; exact h.symm
  | cons x xs ih =>
    simp only [index1] at h
    by_cases hx : x = 1
    · rw [if_pos hx] at h; exact Except.noConfusion h
    · rw [if_neg hx] at h
      cases hrec : index1 xs with
      | error f =>
        rw [hrec] at h
        injection h with h
        exact ih (by rw [hrec, h])
      | ok p => rw [hrec] at h; exact Except.noConfusion h

theorem index1_exists_ok (l : List ℚ) (h : (1 : ℚ) ∈ l) :
    ∃ p, index1 l = Except.ok p := by
  induction l with
  | nil => simp at h
  | cons x xs ih =>
    by_cases hx : x = 1
    · exact ⟨0, by simp [index1, hx]⟩
    · obtain ⟨p, hp⟩ := ih (by
        rcases List.mem_cons.mp h with h1 | h1
        · exact absurd h1.symm hx
        · exact h1)
      exact ⟨p + 1, by simp [index1, hx, hp, Except.map]⟩

theorem mrr_core_cons (s mr : List ℚ) (rest : List (List ℚ × List ℚ)) :
    mrr_core ((s, mr) :: rest)
      = match index1 (((argsortAsc mr).map fun j => s.getD j 0).reverse) with
        | Except.error e => Except.error e
        | Except.ok p =>
          match mrr_core rest with
          | Except.error e => Except.error e
          | Except.ok tl => Except.ok (p :: tl) := by
  cases h1 : index1 (((argsortAsc mr).map fun j => s.getD j 0).reverse) with
  | error e => simp only [mrr_core, h1]; rfl
  | ok p =>
    cases h2 : mrr_core rest with
    | error e => simp only [mrr_core, h1, h2]; rfl
    | ok tl => simp only [mrr_core, h1, h2]; rfl

theorem mrr_core_ok_iff (z : List (List ℚ × List ℚ))
    (hl : ∀ p ∈ z, p.1.length = p.2.length) :
    (∃ rs, mrr_core z = Except.ok rs) ↔ ∀ p ∈ z, (1 : ℚ) ∈ p.1 := by
  induction z with
  | nil => simp [mrr_core]
  | cons q rest ih =>
    obtain ⟨s, mr⟩ := q
    have hs : s.length = mr.length := hl (s, mr) (by simp)
    have ihr := ih fun p hp => hl p (by simp [hp])
    rw [mrr_core_cons]
    constructor
    · rintro ⟨rs, hrs⟩ p hp
      rcases List.mem_cons.mp hp with rfl | hp2
      · by_contra hmem
        rw [index1_eq_error _ (by
          rw [List.mem_reverse, mem_sorted_subject s mr hs]; exact hmem)] at hrs
        exact Except.noConfusion hrs
      · cases h1 : index1 (((argsortAsc mr).map fun j => s.getD j 0).reverse) with
        | error e => rw [h1] at hrs; exact Except.noConfusion hrs
        | ok pp =>
          rw [h1] at hrs
          cases h2 : mrr_core rest with
          | error e => rw [h2] at hrs; exact Except.noConfusion hrs
          | ok tl => exact ihr.mp ⟨tl, h2⟩ p hp2
    · intro hall
      obtain ⟨p, hp⟩ := index1_exists_ok _ (by
        rw [List.mem_reverse, mem_sorted_subject s mr hs]
        exact hall (s, mr) (by simp))
      obtain ⟨tl, htl⟩ := ihr.mpr fun q hq => hall q (by simp [hq])
      exact ⟨p :: tl, by rw [hp, htl]⟩

theorem mrr_core_error_or_ok (z : List (List ℚ × List ℚ)) :
    (∃ rs, mrr_core z = Except.ok rs) ∨ mrr_core z = Except.error PyError.valueError := by
  induction z with
  | nil => exact Or.inl ⟨[], rfl⟩
  | cons q rest ih =>
    obtain ⟨s, mr⟩ := q
    rw [mrr_core_cons]
    cases h1 : index1 (((argsortAsc mr).map fun j => s.getD j 0).reverse) with
    | error e => rw [index1_error_eq _ _ h1]; exact Or.inr rfl
    | ok p =>
      rcases ih with ⟨rs, hrs⟩ | herr
      · rw [hrs]; exact Or.inl ⟨p :: rs, rfl⟩
      · rw [herr]; exact Or.inr rfl

theorem argsort_last_strict_max (mr : List ℚ) (j : Nat) (hj : j < mr.length)
    (hmax : ∀ k < mr.length, k ≠ j → mr.getD k 0 < mr.getD j 0) :
    ∃ init, argsortAsc mr = init ++ [j] := by
  have hperm := argsortAsc_perm mr
  rcases List.eq_nil_or_concat (argsortAsc mr) with hnil | ⟨init, g, hdecomp⟩
  · exfalso
    have hle := hperm.length_eq
    rw [hnil] at hle
    simp at hle
    omega
  rw [List.concat_eq_append] at hdecomp
  have hsorted : List.Sorted (argRel mr) (argsortAsc mr) :=
    List.sorted_insertionSort (argRel mr) (List.range mr.length)
  have hg : g < mr.length := by
    have : g ∈ List.range mr.length := hperm.subset (by rw [hdecomp]; simp)
    exact List.mem_range.mp this
  have hj_mem : j ∈ argsortAsc mr := hperm.mem_iff.mpr (List.mem_range.mpr hj)
  by_cases hgj : g = j
  · exact ⟨init, by rw [hdecomp, hgj]⟩
  exfalso
  have hj_init : j ∈ init := by
    rw [hdecomp] at hj_mem
    rcases List.mem_append.mp hj_mem with h | h
    · exact h
    · simp at h
      exact absurd h.symm hgj
  have hrel : argRel mr j g := by
    rw [hdecomp] at hsorted
    exact (List.pairwise_append.mp hsorted).2.2 j hj_init g (by simp)
  have hstrict : mr.getD g 0 < mr.getD j 0 := hmax g hg hgj
  rcases hrel with h | ⟨h, _⟩
  · exact absurd h (not_lt.mpr (le_of_lt hstrict))
  · exact absurd h (ne_of_gt hstrict)

theorem mrr_row_rank_one (s mr : List ℚ) (j : Nat) (hj : j < mr.length)
    (hs1 : s.getD j 0 = 1)
    (hmax : ∀ k < mr.length, k ≠ j → mr.getD k 0 < mr.getD j 0) :
    index1 (((argsortAsc mr).map (fun i => s.getD i 0)).reverse) = Except.ok 0 := by
  obtain ⟨init, hdecomp⟩ := argsort_last_strict_max mr j hj hmax
  rw [hdecomp, List.map_append, List.reverse_append]
  simp only [List.map_cons, List.map_nil, List.reverse_cons, List.reverse_nil,
    List.nil_append, List.singleton_append, index1]
  rw [if_pos hs1]

theorem mrr_core_all_zero (z : List (List ℚ × List ℚ))
    (h : ∀ p ∈ z,
      index1 (((argsortAsc p.2).map (fun i => p.1.getD i 0)).reverse) = Except.ok 0) :
    mrr_core z = Except.ok (List.replicate z.length 0) := by
  induction z with
  | nil => rfl
  | cons q rest ih =>
    obtain ⟨s, mr⟩ := q
    rw [mrr_core_cons, h (s, mr) (by simp), ih fun p hp => h p (by simp [hp])]
    simp [List.replicate_succ]

/-! ### C5 -/

/-- C5: when every subject row has a single positive entry and the model
similarity of that entry is strictly greater than every other entry in its
row (it is ranked most similar), `mean_reciprocal_rank` returns exactly 1. -/
theorem mrr_perfect_one (S M : List (List ℚ)) (hlen : S.length = M.length)
    (hn : 0 < S.length)
    (hrow : ∀ p ∈ S.zip M, p.1.length = p.2.length ∧
      ∃ j < p.2.length, p.1.getD j 0 = 1 ∧
        (∀ k < p.1.length, k ≠ j → p.1.getD k 0 ≠ 1) ∧
        (∀ k < p.2.length, k ≠ j → p.2.getD k 0 < p.2.getD j 0)) :
    mean_reciprocal_rank S M = Except.ok 1 := by
  have hz : mrr_core (S.zip M) = Except.ok (List.replicate (S.zip M).length 0) := by
    apply mrr_core_all_zero
    intro p hp
    obtain ⟨hpl, j, hj, h1, _, hmax⟩ := hrow p hp
    exact mrr_row_rank_one p.1 p.2 j hj h1 hmax
  have hzl : (S.zip M).length = S.length := by
    rw [List.length_zip, hlen, Nat.min_self]
  unfold mean_reciprocal_rank
  rw [hz]
  show Except.ok _ = Except.ok 1
  congr 1
  simp only [List.map_replicate, List.sum_replicate, List.length_replicate, hzl]
  norm_num
  exact div_self (by exact_mod_cast hn.ne')

/-- Witness for C5 on a concrete 2×2 input where each row's positive entry is
strictly most similar. -/
theorem mrr_perfect_one_witness :
    mean_reciprocal_rank [[1, 0], [0, 1]] [[5, 1], [1, 5]] = Except.ok 1 :=
  mrr_perfect_one [[1, 0], [0, 1]] [[5, 1], [1, 5]] (by decide) (by decide) (by decide)

/-! ### C10 -/

/-- C10: `mean_reciprocal_rank` is partial.  If some subject row contains no
positive entry, the search for the first `1` fails and the function returns
the `ValueError` that Python's `list.index` raises; it produces a value
exactly when every row contains a `1`.  The degenerate rows arise whenever a
label occurs exactly once: after the diagonal drop, that sample's indicator
row contains no `1` at all (third conjunct). -/
theorem mrr_positive_row_requirement (S M : List (List ℚ)) (hlen : S.length = M.length)
    (hrl : ∀ p ∈ S.zip M, p.1.length = p.2.length) :
    ((∃ s ∈ S, (1 : ℚ) ∉ s) →
      mean_reciprocal_rank S M = Except.error PyError.valueError) ∧
    ((∀ s ∈ S, (1 : ℚ) ∈ s) → ∃ q, mean_reciprocal_rank S M = Except.ok q) ∧
    (∀ (labels : List ℤ) (i : Nat), 2 ≤ labels.length → i < labels.length →
      (∀ j < labels.length, j ≠ i → labels.getD j 0 ≠ labels.getD i 0) →
      (1 : ℚ) ∉ (skip_diag_strided (subject_scores labels)).getD i []) := by
  refine ⟨?_, ?_, ?_⟩
  · rintro ⟨s, hsS, hs1⟩
    have hnotall : ¬ ∀ p ∈ S.zip M, (1 : ℚ) ∈ p.1 := by
      intro hall
      obtain ⟨i, hiS, hgi⟩ := List.mem_iff_getElem.mp hsS
      have hiz : i < (S.zip M).length := by
        rw [List.length_zip]
        omega
      have hmem := hall ((S.zip M).get ⟨i, hiz⟩) (List.get_mem _ _ _)
      rw [List.get_eq_getElem, List.getElem_zip] at hmem
      rw [hgi] at hmem
      exact hs1 hmem
    have hnok : ¬ ∃ rs, mrr_core (S.zip M) = Except.ok rs :=
      fun hok => hnotall ((mrr_core_ok_iff (S.zip M) hrl).mp hok)
    rcases mrr_core_error_or_ok (S.zip M) with hok | herr
    · exact absurd hok hnok
    · unfold mean_reciprocal_rank
      rw [herr]
      rfl
  · intro hall
    obtain ⟨rs, hrs⟩ := (mrr_core_ok_iff (S.zip M) hrl).mpr
      fun p hp => hall p.1 (List.of_mem_zip hp).1
    exact ⟨_, by unfold mean_reciprocal_rank; rw [hrs]; rfl⟩
  · intro labels i h2 hi huniq
    have hA : (subject_scores labels).length = labels.length := by
      simp [subject_scores]
    have hrows : ∀ r ∈ subject_scores labels, r.length = labels.length := by
      intro r hr
      simp only [subject_scores, List.mem_map] at hr
      obtain ⟨a, _, rfl⟩ := hr
      simp
    rw [skip_diag_row (subject_scores labels) labels.length h2 hA hrows i hi]
    have hrowi : (subject_scores labels).getD i []
        = (List.range labels.length).map
            (fun j => if labels.getD i 0 = labels.getD j 0 then (1 : ℚ) else 0) := by
      rw [List.getD_eq_getElem _ _ (by rw [hA]; exact hi)]
      simp only [subject_scores]
      rw [List.getElem_map, List.getElem_range]
    rw [hrowi]
    intro hmem
    obtain ⟨k, hk, hval⟩ := List.mem_iff_getElem.mp hmem
    have hkb : k < labels.length - 1 := by
      have hb := hk
      rw [List.length_eraseIdx_of_lt (by simpa using hi)] at hb
      simpa using hb
    rw [List.getElem_eraseIdx] at hval
    by_cases hki : k < i
    · rw [dif_pos hki] at hval
      rw [List.getElem_map, List.getElem_range] at hval
      rw [if_neg fun he => huniq k (by omega) (by omega) he.symm] at hval
      exact absurd hval (by norm_num)
    · rw [dif_neg hki] at hval
      rw [List.getElem_map, List.getElem_range] at hval
      rw [if_neg fun he => huniq (k + 1) (by omega) (by omega) he.symm] at hval
      exact absurd hval (by norm_num)

/-- Witness for C10: a row with no positive entry errors, a row with one
succeeds. -/
theorem mrr_positive_row_requirement_witness :
    mean_reciprocal_rank [[0, 0]] [[1, 2]] = Except.error PyError.valueError ∧
    (∃ q, mean_reciprocal_rank [[1, 0]] [[2, 1]] = Except.ok q) :=
  ⟨(mrr_positive_row_requirement [[0, 0]] [[1, 2]] (by decide) (by decide)).1
      ⟨[0, 0], by decide, by decide⟩,
   (mrr_positive_row_requirement [[1, 0]] [[2, 1]] (by decide) (by decide)).2.1 (by decide)⟩
